import Mathlib

/-!
Verification of the proofly correction-lifecycle engine.

Shallow embedding of the TypeScript sources: texts are lists of
characters, JavaScript string primitives (`slice`, `substring`, `trim`)
are modelled with their ECMAScript clamping semantics, numeric offsets
are integers, maps keyed by codes/ids are association lists, and the
single-threaded async constructs (debounce timers, the FIFO async
queue) are modelled as explicit state machines processed in event
order.
-/

namespace Proofly

/-- ECMAScript `String.prototype.slice(s, e)`: negative indices count
from the end, indices are clamped to `[0, len]`, and the result is
empty when the clamped end does not exceed the clamped start. -/
def jsSlice (text : List Char) (s e : Int) : List Char :=
  let len : Int := text.length
  let s' : Int := if s < 0 then max (len + s) 0 else min s len
  let e' : Int := if e < 0 then max (len + e) 0 else min e len
  if e' ≤ s' then [] else (text.take e'.toNat).drop s'.toNat

/-- ECMAScript `String.prototype.substring(s, e)`: indices are clamped
to `[0, len]` and swapped when out of order. -/
def jsSubstring (text : List Char) (s e : Int) : List Char :=
  let len : Int := text.length
  let s' : Int := min (max s 0) len
  let e' : Int := min (max e 0) len
  (text.take (max s' e').toNat).drop (min s' e').toNat

/-- `ProofreadCorrection` from `src/shared/types.ts`: an
offset-addressed span with its replacement text (the `correction`
field). The optional `type`/`explanation` metadata plays no role in
the offset logic and is carried as an opaque tag. -/
structure ProofreadCorrection where
  startIndex : Int
  endIndex : Int
  correction : List Char
  tag : Nat := 0
  deriving DecidableEq, Repr

/-- The length delta an applied correction induces on the text:
`correction.length - (endIndex - startIndex)`. -/
def lengthDiff (a : ProofreadCorrection) : Int :=
  (a.correction.length : Int) - (a.endIndex - a.startIndex)

/-- `ProofreadingManager.updateCorrectionsAfterApply`
(`src/content/handlers/direct-target-handler.ts`): drop the applied
correction from the element's list, then shift both offsets of every
correction whose `startIndex` is strictly greater than the applied
correction's `startIndex` by the length delta. -/
def updateCorrectionsAfterApply (corrections : List ProofreadCorrection)
    (applied : ProofreadCorrection) : List ProofreadCorrection :=
  let d := lengthDiff applied
  (corrections.filter (fun c => c ≠ applied)).map fun c =>
    if c.startIndex > applied.startIndex then
      { c with startIndex := c.startIndex + d, endIndex := c.endIndex + d }
    else c

/-- The plain-text application path of
`ProofreadingManager.applyCorrectionToElement`:
`text.substring(0, startIndex) + correction + text.substring(endIndex)`. -/
def applyCorrectionText (text : List Char) (c : ProofreadCorrection) : List Char :=
  jsSubstring text 0 c.startIndex ++ c.correction ++
    jsSubstring text c.endIndex (text.length : Int)

/-- Rebasing of one selection endpoint in
`ProofreadingManager.applyCorrectionWithUndo`: an endpoint past the
replaced range shifts by the length delta, an endpoint inside the
replaced range collapses to the replacement's end, and an endpoint at
or before the start is untouched. Both branches of the source (for
`selectionStart` and for `selectionEnd`) are this same conditional. -/
def rebaseSelectionEndpoint (c : ProofreadCorrection) (pos : Int) : Int :=
  if pos > c.endIndex then pos + lengthDiff c
  else if pos > c.startIndex then c.startIndex + (c.correction.length : Int)
  else pos

/-- The selection restored by `applyCorrectionWithUndo` from a prior
selection `(originalStart, originalEnd)`: each endpoint is rebased
independently. -/
def rebaseSelection (c : ProofreadCorrection) (originalStart originalEnd : Int) :
    Int × Int :=
  (rebaseSelectionEndpoint c originalStart, rebaseSelectionEndpoint c originalEnd)

/-- ECMAScript `String.prototype.trim()`: strip leading and trailing
whitespace. -/
def jsTrim (s : List Char) : List Char :=
  ((s.dropWhile Char.isWhitespace).reverse.dropWhile Char.isWhitespace).reverse

/-- `IssueGroupErrorCode` from `src/shared/messages/issues.ts`: the
codes the content script attaches to per-surface messages. -/
inductive IssueGroupErrorCode where
  | unsupportedLanguage
  | languageDetectionUnconfident
  | languageDetectionError
  deriving DecidableEq, Repr

/-- Message severity. -/
inductive Severity where
  | warning
  | error
  deriving DecidableEq, Repr

/-- `IssueGroupError`: a per-surface advisory or error message. The
optional `details.language` payload is kept as `detailsLanguage`. -/
structure IssueGroupError where
  code : IssueGroupErrorCode
  severity : Severity
  message : List Char
  detailsLanguage : Option (List Char) := none
  deriving DecidableEq, Repr

/-- `ContentProofreadingService.buildUnsupportedLanguageError`: the
label is the trimmed language or the literal `unknown` when that trim
is empty (JavaScript `||` on a falsy empty string), the details part
is appended only for a non-empty reason, and the whole message is
trimmed. -/
def buildUnsupportedLanguageError (language : List Char) (errorMessage : List Char) :
    IssueGroupError :=
  let languageLabel := if jsTrim language = [] then "unknown".data else jsTrim language
  let details := if errorMessage = [] then [] else " Reason: ".data ++ errorMessage
  { code := .unsupportedLanguage
    severity := .error
    message := jsTrim
      ("Proofreader API rejected language \"".data ++ languageLabel ++ "\".".data ++ details)
    detailsLanguage := some languageLabel }

/-- `ProofreadResult` from `src/shared/types.ts`. -/
structure ProofreadResult where
  correctedInput : List Char
  corrections : List ProofreadCorrection
  deriving DecidableEq, Repr

/-- The error codes of the proofread response envelope:
`unsupported-language`, `cancelled`, `unknown`. -/
inductive ProofreadErrorCode where
  | unsupportedLanguage
  | cancelled
  | unknown
  deriving DecidableEq, Repr

/-- A proofread error from the response envelope:
`{code, message, name?}`. -/
structure ServiceError where
  code : ProofreadErrorCode
  message : List Char
  deriving DecidableEq, Repr

/-- Selection sub-range `{start, end}` of a selection-scoped run
(`end` is a reserved word in Lean, kept as `stop`). -/
structure SelectionRange where
  start : Int
  stop : Int
  deriving DecidableEq, Repr

/-- The proofread response envelope: `{ok:true, result}` (the code
also guards against a null `result`) or `{ok:false, error}`. -/
inductive ProofreadResponse where
  | ok (result : Option ProofreadResult)
  | err (e : ServiceError)
  deriving DecidableEq, Repr

/-- How the body of `ContentProofreadingService.runProofread` ends
after the response arrives: a normal return (possibly `null`), a
thrown `DOMException` named `AbortError`, or a thrown `Error`. -/
inductive RunOutcome where
  | committed (result : Option ProofreadResult)
  | abortError (message : List Char)
  | failure (message : List Char)
  deriving DecidableEq, Repr

/-- Observable effects of the response-handling tail of `runProofread`:
messages pushed through `onMessage`, codes cleared through
`onClearMessage`, whether a retry (`scheduleProofread`) was enqueued,
and how the run ended. -/
structure RunEffects where
  emitted : List IssueGroupError
  cleared : List IssueGroupErrorCode
  retryScheduled : Bool
  outcome : RunOutcome
  deriving DecidableEq, Repr

/-- The response-handling tail of
`ContentProofreadingService.runProofread`
(`src/content/services/content-proofreading-service.ts`, after
`requestProofread` returns): `unsupported-language` surfaces one error
and returns `null`; `cancelled` schedules a retry only for
non-selection runs and throws `AbortError`; any other error throws;
on success the `unsupported-language` message is cleared and, for a
selection-scoped run with a non-null result, the corrected text is
reassembled as `prefix + correctedSubrange + suffix` with every
correction shifted by `selection.start`. -/
def handleProofreadResponse (text : List Char) (selection : Option SelectionRange)
    (requestedLanguage : List Char) (response : ProofreadResponse) : RunEffects :=
  match response with
  | .err e =>
    match e.code with
    | .unsupportedLanguage =>
      { emitted := [buildUnsupportedLanguageError requestedLanguage e.message]
        cleared := []
        retryScheduled := false
        outcome := .committed none }
    | .cancelled =>
      { emitted := []
        cleared := []
        retryScheduled := selection.isNone
        outcome := .abortError
          (if e.message = [] then "Proofreader request cancelled".data else e.message) }
    | .unknown =>
      { emitted := []
        cleared := []
        retryScheduled := false
        outcome := .failure
          (if e.message = [] then "Proofreader request failed".data else e.message) }
  | .ok result =>
    match result, selection with
    | none, _ =>
      { emitted := [], cleared := [.unsupportedLanguage], retryScheduled := false
        outcome := .committed none }
    | some r, none =>
      { emitted := [], cleared := [.unsupportedLanguage], retryScheduled := false
        outcome := .committed (some r) }
    | some r, some sel =>
      let pre := jsSlice text 0 sel.start
      let suf := jsSlice text sel.stop (text.length : Int)
      let corrections := r.corrections.map fun c =>
        { c with startIndex := c.startIndex + sel.start, endIndex := c.endIndex + sel.start }
      { emitted := [], cleared := [.unsupportedLanguage], retryScheduled := false
        outcome := .committed (some
          { correctedInput := pre ++ r.correctedInput ++ suf, corrections := corrections }) }

/-- Lookup in an association list modelling a JavaScript `Map`. -/
def mapGet {κ ν : Type} [DecidableEq κ] : List (κ × ν) → κ → Option ν
  | [], _ => none
  | (k, v) :: rest, key => if k = key then some v else mapGet rest key

/-- `Map.prototype.set`: replace the first (and, for a well-formed
map, only) entry in place when the key exists — JavaScript `Map` keeps
the original insertion position — and append otherwise. -/
def mapSet {κ ν : Type} [DecidableEq κ] : List (κ × ν) → κ → ν → List (κ × ν)
  | [], key, v => [(key, v)]
  | (k, w) :: rest, key, v =>
    if k = key then (key, v) :: rest else (k, w) :: mapSet rest key v

/-- `IssueManager.setMessage` (for one element): keyed by the message
code; when an entry with the same code already holds an identical
message and severity nothing changes and no update is scheduled,
otherwise the entry is set and an update is scheduled (the returned
Boolean). -/
def setMessage (messages : List (IssueGroupErrorCode × IssueGroupError))
    (message : IssueGroupError) :
    List (IssueGroupErrorCode × IssueGroupError) × Bool :=
  match mapGet messages message.code with
  | some existing =>
    if existing.message = message.message ∧ existing.severity = message.severity then
      (messages, false)
    else (mapSet messages message.code message, true)
  | none => (mapSet messages message.code message, true)

/-- `IssueManager.extractOriginalText`: an empty text short-circuits
to the empty string; otherwise both offsets are clamped (`safeStart`
into `[0, len]`, `safeEnd` into `[safeStart, len]`) and the text is
sliced between them. -/
def extractOriginalText (text : List Char) (c : ProofreadCorrection) : List Char :=
  if text = [] then []
  else
    let maxIndex : Int := text.length
    let safeStart := max 0 (min c.startIndex maxIndex)
    let safeEnd := max safeStart (min c.endIndex maxIndex)
    jsSlice text safeStart safeEnd

/-- Clamp `x` into `[lo, hi]`. -/
def clampInt (x lo hi : Int) : Int := max lo (min x hi)

/-- The specification's description of the denormalized original text:
`text.slice(s, e)` with `s = clamp(startIndex, 0, len)` and
`e = clamp(endIndex, s, len)`. Stated from the claim's words, to be
compared with `extractOriginalText` as translated from the source. -/
def extractOriginalTextSpec (text : List Char) (c : ProofreadCorrection) : List Char :=
  let len : Int := text.length
  let s := clampInt c.startIndex 0 len
  let e := clampInt c.endIndex s len
  (text.take e.toNat).drop s.toNat

/-- The issues-update payload as the background revision logic sees
it: an optional revision counter plus opaque content `data` (the
element groups, labels, and so on, which the revision check never
inspects). -/
structure IssuesUpdatePayload where
  revision : Option Int
  data : Nat
  deriving DecidableEq, Repr

/-- `TabIssuesState` from `src/background/main.ts`. -/
structure TabIssuesState where
  payload : Option IssuesUpdatePayload
  revision : Int
  deriving DecidableEq, Repr

/-- The revision gate of `handleIssuesUpdate`
(`src/background/main.ts`): `incomingRevision = payload.revision ?? 0`
and `currentRevision = existingState?.revision ?? 0`; an incoming
update is ignored only when its revision is strictly lower than the
current one, otherwise the stored state is replaced. -/
def handleIssuesUpdate (state : Option TabIssuesState)
    (incoming : IssuesUpdatePayload) : Option TabIssuesState :=
  let incomingRevision := incoming.revision.getD 0
  let currentRevision := (state.map TabIssuesState.revision).getD 0
  if incomingRevision < currentRevision then state
  else some { payload := some incoming, revision := incomingRevision }

/-- An event on a debounced function: an invocation with an argument,
or a `cancel()` call, at a given timestamp. -/
inductive DebounceEvent (α : Type) where
  | call (time : Int) (arg : α)
  | cancel (time : Int)
  deriving DecidableEq, Repr

/-- Timestamp of a debounce event. -/
def DebounceEvent.time {α : Type} : DebounceEvent α → Int
  | .call t _ => t
  | .cancel t => t

/-- Timer state of `debounce` (`src/shared/utils/debounce.ts`): the
single pending timeout (its fire time and captured arguments) plus the
invocations fired so far. -/
structure DebounceRun (α : Type) where
  pending : Option (Int × α)
  fired : List (Int × α)
  deriving DecidableEq, Repr

/-- Fire the pending timeout if its fire time has been reached
(`setTimeout` runs the wrapped callback and nulls `timeoutId`). -/
def fireDue {α : Type} (s : DebounceRun α) (now : Int) : DebounceRun α :=
  match s.pending with
  | some (ft, a) =>
    if ft ≤ now then { pending := none, fired := s.fired ++ [(ft, a)] } else s
  | none => s

/-- One event against the debounced function: any timer due strictly
before (or at) the event's time fires first; a call clears the pending
timeout and schedules a new one at `time + delayMs` with the call's
arguments; `cancel` clears the pending timeout. -/
def debounceStep {α : Type} (delayMs : Int) (s : DebounceRun α) (e : DebounceEvent α) :
    DebounceRun α :=
  let s' := fireDue s e.time
  match e with
  | .call t a => { s' with pending := some (t + delayMs, a) }
  | .cancel _ => { s' with pending := none }

/-- After the last event, let any remaining pending timeout fire. -/
def debounceFlush {α : Type} (s : DebounceRun α) : List (Int × α) :=
  match s.pending with
  | some (ft, a) => s.fired ++ [(ft, a)]
  | none => s.fired

/-- The complete invocation list produced by a debounced function over
a time-ordered list of events. -/
def debounceRun {α : Type} (delayMs : Int) (events : List (DebounceEvent α)) :
    List (Int × α) :=
  debounceFlush (events.foldl (debounceStep delayMs) ⟨none, []⟩)

/-- `AsyncQueue.processQueue` (`src/shared/utils/queue.ts`): tasks are
shifted in FIFO order and awaited one at a time. Each enqueued
operation is wrapped in try/catch resolving or rejecting only its own
caller's promise, so a task is a state transformer returning its own
settlement (`Except`), and the loop advances past an errored task
exactly as past a resolved one. -/
def processQueue {σ ε α : Type} : σ → List (σ → σ × Except ε α) → σ × List (Except ε α)
  | s, [] => (s, [])
  | s, t :: rest =>
    let step := t s
    let tail := processQueue step.1 rest
    (tail.1, step.2 :: tail.2)

/-- `ElementTracker` state (`src/content/services/element-tracker.ts`):
elements and identifiers are abstracted to naturals. `elementIds` is a
`WeakMap` from element to id — it is never cleared, so entries survive
unregistration; `elementLookup` is the id-to-element `Map`. -/
structure ElementTracker where
  registeredElements : List Nat
  elementIds : List (Nat × Nat)
  elementLookup : List (Nat × Nat)
  activeElement : Option Nat
  nextId : Nat
  deriving DecidableEq, Repr

/-- A freshly constructed tracker. -/
def ElementTracker.empty : ElementTracker :=
  { registeredElements := [], elementIds := [], elementLookup := []
    activeElement := none, nextId := 0 }

/-- `ElementTracker.getElementId`. Modelled from the spec for the one
missing dependency: `createUniqueId` lives in `src/content/utils.ts`,
which is not among the sources; the spec requires a stable, lazily
assigned identity unique per surface, modelled as the next value of a
fresh counter. A missing id is assigned and recorded in both maps; an
existing id is returned unchanged — in particular `elementLookup` is
NOT re-populated when the `WeakMap` already holds an id. -/
def getElementId (t : ElementTracker) (e : Nat) : Nat × ElementTracker :=
  match mapGet t.elementIds e with
  | some id => (id, t)
  | none =>
    let id := t.nextId
    (id, { t with
      elementIds := mapSet t.elementIds e id
      elementLookup := mapSet t.elementLookup id e
      nextId := t.nextId + 1 })

/-- `ElementTracker.registerElement`: a no-op when already registered,
otherwise adds to the registered set and lazily assigns an id. -/
def registerElement (t : ElementTracker) (e : Nat) : ElementTracker :=
  if t.registeredElements.contains e then t
  else
    let t' := { t with registeredElements := t.registeredElements ++ [e] }
    (getElementId t' e).2

/-- `ElementTracker.unregisterElement`: a no-op when not registered,
otherwise removes from the registered set, deletes the id's
`elementLookup` entry (the `WeakMap` entry stays), and clears the
active element when it is this one. -/
def unregisterElement (t : ElementTracker) (e : Nat) : ElementTracker :=
  if t.registeredElements.contains e then
    let t1 := { t with registeredElements := t.registeredElements.filter (fun x => x ≠ e) }
    let t2 :=
      match mapGet t1.elementIds e with
      | some id => { t1 with elementLookup := t1.elementLookup.filter (fun p => p.1 ≠ id) }
      | none => t1
    if t2.activeElement = some e then { t2 with activeElement := none } else t2
  else t

/-- `ElementTracker.getElementById`. -/
def getElementById (t : ElementTracker) (id : Nat) : Option Nat :=
  mapGet t.elementLookup id

/-- A demonstration correction used in the concrete scenarios below. -/
def selDemo : ProofreadCorrection :=
  { startIndex := 2, endIndex := 5, correction := "have".data }

theorem jsSlice_eq_take_drop (text : List Char) (s e : Int)
    (hs0 : 0 ≤ s) (hsl : s ≤ (text.length : Int))
    (he0 : 0 ≤ e) (hel : e ≤ (text.length : Int)) :
    jsSlice text s e = (text.take e.toNat).drop s.toNat := by
  have h1 : ¬ s < 0 := not_lt.mpr hs0
  have h2 : ¬ e < 0 := not_lt.mpr he0
  simp only [jsSlice, if_neg h1, if_neg h2, min_eq_left hsl, min_eq_left hel]
  split
  · next hes =>
    symm
    have hlen : (text.take e.toNat).length ≤ s.toNat := by
      have : (text.take e.toNat).length ≤ e.toNat := by
        simp [List.length_take]
      exact this.trans (Int.toNat_le_toNat hes)
    exact List.drop_eq_nil_of_le hlen
  · rfl

/-- C1: applying a correction removes it from the element's list and
shifts both offsets of every remaining correction whose `startIndex`
is strictly greater than the applied correction's `startIndex` by
exactly `len(replacementText) - (endIndex - startIndex)`, leaving
every other remaining correction unchanged; concretely, applying
`{startIndex:2, endIndex:5, replacementText:"have"}` to
`"I has a radnom typo."` yields `"I have a radnom typo."` and rebases
a correction at `{9, 15}` to `{10, 16}`. -/
theorem apply_rebases_remaining_corrections :
    (∀ (cs : List ProofreadCorrection) (a : ProofreadCorrection),
      updateCorrectionsAfterApply cs a =
        (cs.filter fun c => c ≠ a).map fun c =>
          if a.startIndex < c.startIndex then
            { c with
              startIndex :=
                c.startIndex + ((a.correction.length : Int) - (a.endIndex - a.startIndex))
              endIndex :=
                c.endIndex + ((a.correction.length : Int) - (a.endIndex - a.startIndex)) }
          else c)
    ∧ applyCorrectionText "I has a radnom typo.".data selDemo = "I have a radnom typo.".data
    ∧ updateCorrectionsAfterApply
        [selDemo, { startIndex := 9, endIndex := 15, correction := "random".data }] selDemo =
        [{ startIndex := 10, endIndex := 16, correction := "random".data }] :=
  ⟨fun _ _ => rfl, by decide, by decide⟩

/-- C10: computing the denormalized original text of a correction is
total in the offsets and agrees with the specification's clamped
slice: `text.slice(s, e)` with `s = clamp(startIndex, 0, len)` and
`e = clamp(endIndex, s, len)`; on an empty text it is the empty
string. -/
theorem extractOriginalText_total_clamped :
    (∀ (text : List Char) (c : ProofreadCorrection),
      extractOriginalText text c = extractOriginalTextSpec text c)
    ∧ ∀ c : ProofreadCorrection, extractOriginalText [] c = [] := by
  constructor
  · intro text c
    by_cases htext : text = []
    · subst htext
      simp only [extractOriginalText, extractOriginalTextSpec, clampInt, if_pos rfl]
      simp
    · have hlen0 : (0 : Int) ≤ (text.length : Int) := Int.ofNat_nonneg _
      simp only [extractOriginalText, extractOriginalTextSpec, clampInt, if_neg htext]
      set len : Int := (text.length : Int) with hlen
      set s : Int := max 0 (min c.startIndex len) with hs
      set e : Int := max s (min c.endIndex len) with he
      have hs0 : 0 ≤ s := le_max_left _ _
      have hsl : s ≤ len := by
        rw [hs]
        exact max_le hlen0 (min_le_right _ _)
      have he0 : 0 ≤ e := hs0.trans (le_max_left _ _)
      have hel : e ≤ len := by
        rw [he]
        exact max_le hsl (min_le_right _ _)
      exact jsSlice_eq_take_drop text s e hs0 hsl he0 hel
  · intro c
    simp [extractOriginalText]

/-- C4 counterexample: a second update carrying the same revision as
the one already stored is not dropped — it replaces the stored per-tab
state (the stored payload becomes the new one). -/
theorem issuesUpdate_duplicate_revision_replaces :
    handleIssuesUpdate (handleIssuesUpdate none { revision := some 1, data := 0 })
        { revision := some 1, data := 1 } ≠
      handleIssuesUpdate none { revision := some 1, data := 0 } := by decide

/-- C4 amended: an incoming update whose revision is strictly lower
than the highest revision observed for the tab is dropped without
replacing the stored state; an update whose revision is greater than
or equal to the current one (duplicates included) replaces the stored
state. -/
theorem issuesUpdate_revision_order (state : Option TabIssuesState)
    (p : IssuesUpdatePayload) :
    (p.revision.getD 0 < (state.map TabIssuesState.revision).getD 0 →
      handleIssuesUpdate state p = state)
    ∧ ((state.map TabIssuesState.revision).getD 0 ≤ p.revision.getD 0 →
      handleIssuesUpdate state p = some { payload := some p, revision := p.revision.getD 0 }) := by
  constructor
  · intro h
    simp [handleIssuesUpdate, h]
  · intro h
    simp [handleIssuesUpdate, not_lt.mpr h]

theorem issuesUpdate_revision_order_witness :
    handleIssuesUpdate (some { payload := none, revision := 5 })
        { revision := some 3, data := 0 } =
      some { payload := none, revision := 5 }
    ∧ handleIssuesUpdate (some { payload := none, revision := 5 })
        { revision := some 7, data := 1 } =
      some { payload := some { revision := some 7, data := 1 }, revision := 7 } := by
  constructor
  · exact (issuesUpdate_revision_order (some { payload := none, revision := 5 })
      { revision := some 3, data := 0 }).1 (by decide)
  · have h := (issuesUpdate_revision_order (some { payload := none, revision := 5 })
      { revision := some 7, data := 1 }).2 (by decide)
    simpa using h

/-- C7: when a correction is applied to a plain input/textarea, each
prior selection endpoint strictly past `endIndex` shifts by
`len(replacement) - (endIndex - startIndex)`, each endpoint inside the
replaced range collapses to `startIndex + len(replacement)`, each
endpoint at or before `startIndex` is unchanged, and the two endpoints
are rebased independently of each other. -/
theorem applyWithUndo_selection_rebase (c : ProofreadCorrection)
    (hc : c.startIndex ≤ c.endIndex) :
    (∀ pos : Int, c.endIndex < pos →
      rebaseSelectionEndpoint c pos =
        pos + ((c.correction.length : Int) - (c.endIndex - c.startIndex)))
    ∧ (∀ pos : Int, c.startIndex < pos → pos ≤ c.endIndex →
      rebaseSelectionEndpoint c pos = c.startIndex + (c.correction.length : Int))
    ∧ (∀ pos : Int, pos ≤ c.startIndex → rebaseSelectionEndpoint c pos = pos)
    ∧ ∀ s e : Int, rebaseSelection c s e =
        (rebaseSelectionEndpoint c s, rebaseSelectionEndpoint c e) := by
  refine ⟨fun pos h => ?_, fun pos h1 h2 => ?_, fun pos h => ?_, fun s e => rfl⟩
  · simp [rebaseSelectionEndpoint, lengthDiff, h]
  · simp [rebaseSelectionEndpoint, not_lt.mpr h2, h1]
  · simp [rebaseSelectionEndpoint, not_lt.mpr h, not_lt.mpr (h.trans hc)]

theorem applyWithUndo_selection_rebase_witness :
    rebaseSelectionEndpoint selDemo 9 =
      9 + ((selDemo.correction.length : Int) - (selDemo.endIndex - selDemo.startIndex))
    ∧ rebaseSelectionEndpoint selDemo 4 =
      selDemo.startIndex + (selDemo.correction.length : Int)
    ∧ rebaseSelectionEndpoint selDemo 1 = 1
    ∧ rebaseSelection selDemo 9 15 =
      (rebaseSelectionEndpoint selDemo 9, rebaseSelectionEndpoint selDemo 15) := by
  have h := applyWithUndo_selection_rebase selDemo (by decide)
  exact ⟨h.1 9 (by decide), h.2.1 4 (by decide) (by decide),
    h.2.2.1 1 (by decide), h.2.2.2 9 15⟩

theorem mapGet_mapSet_self {κ ν : Type} [DecidableEq κ] (m : List (κ × ν)) (k : κ) (v : ν) :
    mapGet (mapSet m k v) k = some v := by
  induction m with
  | nil => simp [mapSet, mapGet]
  | cons p rest ih =>
    obtain ⟨a, b⟩ := p
    by_cases hp : a = k
    · simp [mapSet, mapGet, hp]
    · simp [mapSet, mapGet, hp, ih]

theorem mapGet_mapSet_ne {κ ν : Type} [DecidableEq κ] (m : List (κ × ν)) (k k' : κ) (v : ν)
    (hne : k' ≠ k) :
    mapGet (mapSet m k v) k' = mapGet m k' := by
  have hkk : ¬ (k = k') := fun h => hne h.symm
  induction m with
  | nil => simp [mapSet, mapGet, hkk]
  | cons p rest ih =>
    obtain ⟨a, b⟩ := p
    by_cases hp : a = k
    · subst hp
      simp [mapSet, mapGet, hkk]
    · by_cases hp' : a = k'
      · simp [mapSet, mapGet, hp, hp', hne]
      · simp [mapSet, mapGet, hp, hp', ih]

theorem filter_key_eq_nil {κ ν : Type} [DecidableEq κ] (m : List (κ × ν)) (k : κ)
    (h : k ∉ m.map Prod.fst) :
    m.filter (fun p => p.1 = k) = [] := by
  induction m with
  | nil => rfl
  | cons p rest ih =>
    obtain ⟨a, b⟩ := p
    have hp : ¬ a = k := fun hh => h (by simp [hh])
    have hrest : k ∉ rest.map Prod.fst := fun hh => h (by simp [hh])
    simp [List.filter_cons, hp, ih hrest]

theorem filter_key_of_mapGet {κ ν : Type} [DecidableEq κ] (m : List (κ × ν)) (k : κ) (v : ν)
    (hnodup : (m.map Prod.fst).Nodup) (hget : mapGet m k = some v) :
    m.filter (fun p => p.1 = k) = [(k, v)] := by
  induction m with
  | nil => simp [mapGet] at hget
  | cons p rest ih =>
    obtain ⟨a, b⟩ := p
    rw [List.map_cons] at hnodup
    obtain ⟨h1, h2⟩ := List.nodup_cons.mp hnodup
    by_cases hp : a = k
    · subst hp
      have hb : b = v := by simpa [mapGet] using hget
      subst hb
      simp [List.filter_cons, filter_key_eq_nil rest a h1]
    · have hget' : mapGet rest k = some v := by simpa [mapGet, hp] using hget
      simp [List.filter_cons, hp, ih h2 hget']

theorem keys_mapSet_subset {κ ν : Type} [DecidableEq κ] (m : List (κ × ν)) (k x : κ) (v : ν)
    (hx : x ∈ (mapSet m k v).map Prod.fst) : x ∈ m.map Prod.fst ∨ x = k := by
  induction m with
  | nil =>
    right
    simpa [mapSet] using hx
  | cons p rest ih =>
    obtain ⟨a, b⟩ := p
    by_cases hp : a = k
    · subst hp
      simp only [mapSet, if_pos rfl, List.map_cons] at hx
      rcases List.mem_cons.mp hx with h | h
      · right; exact h
      · left; simp [h]
    · simp only [mapSet, if_neg hp, List.map_cons] at hx
      rcases List.mem_cons.mp hx with h | h
      · left; simp [h]
      · rcases ih h with h1 | h1
        · left; simp [h1]
        · right; exact h1

theorem mapSet_keys_nodup {κ ν : Type} [DecidableEq κ] (m : List (κ × ν)) (k : κ) (v : ν)
    (h : (m.map Prod.fst).Nodup) : ((mapSet m k v).map Prod.fst).Nodup := by
  induction m with
  | nil => simp [mapSet]
  | cons p rest ih =>
    obtain ⟨a, b⟩ := p
    rw [List.map_cons] at h
    obtain ⟨h1, h2⟩ := List.nodup_cons.mp h
    by_cases hp : a = k
    · subst hp
      simp only [mapSet, if_pos rfl, List.map_cons]
      exact List.nodup_cons.mpr ⟨h1, h2⟩
    · simp only [mapSet, if_neg hp, List.map_cons]
      refine List.nodup_cons.mpr ⟨?_, ih h2⟩
      intro hmem
      rcases keys_mapSet_subset rest k a v hmem with hh | hh
      · exact h1 hh
      · exact hp hh

theorem setMessage_code_unique (messages : List (IssueGroupErrorCode × IssueGroupError))
    (msg : IssueGroupError) (hnodup : (messages.map Prod.fst).Nodup) :
    ((setMessage messages msg).1.filter (fun p => p.1 = msg.code)).length = 1 := by
  cases hget : mapGet messages msg.code with
  | none =>
    simp only [setMessage, hget]
    rw [filter_key_of_mapGet _ _ msg (mapSet_keys_nodup _ _ _ hnodup)
      (mapGet_mapSet_self _ _ _)]
    rfl
  | some existing =>
    by_cases hsame : existing.message = msg.message ∧ existing.severity = msg.severity
    · simp only [setMessage, hget, if_pos hsame]
      rw [filter_key_of_mapGet messages msg.code existing hnodup hget]
      rfl
    · simp only [setMessage, hget, if_neg hsame]
      rw [filter_key_of_mapGet _ _ msg (mapSet_keys_nodup _ _ _ hnodup)
        (mapGet_mapSet_self _ _ _)]
      rfl

theorem setMessage_idempotent (messages : List (IssueGroupErrorCode × IssueGroupError))
    (msg : IssueGroupError) :
    setMessage (setMessage messages msg).1 msg = ((setMessage messages msg).1, false) := by
  cases hget : mapGet messages msg.code with
  | none =>
    simp only [setMessage, hget]
    simp [setMessage, mapGet_mapSet_self]
  | some existing =>
    by_cases hsame : existing.message = msg.message ∧ existing.severity = msg.severity
    · simp only [setMessage, hget, if_pos hsame]
    · simp only [setMessage, hget, if_neg hsame]
      simp [setMessage, mapGet_mapSet_self]

/-- C5: a run answered with `{ok:false, error:{code:"unsupported-language"}}`
surfaces exactly one error message carrying the `unsupported-language`
code (re-setting the same code with an identical message and severity
is a no-op, so no duplicate accumulates in the element's message map),
returns `null` without committing corrections, and schedules no
retry. -/
theorem unsupportedLanguage_surfaces_single_error
    (text lang m : List Char) (selection : Option SelectionRange)
    (messages : List (IssueGroupErrorCode × IssueGroupError))
    (hnodup : (messages.map Prod.fst).Nodup) :
    (handleProofreadResponse text selection lang
        (.err { code := .unsupportedLanguage, message := m })).emitted =
      [buildUnsupportedLanguageError lang m]
    ∧ (buildUnsupportedLanguageError lang m).code = .unsupportedLanguage
    ∧ (handleProofreadResponse text selection lang
        (.err { code := .unsupportedLanguage, message := m })).outcome = .committed none
    ∧ (handleProofreadResponse text selection lang
        (.err { code := .unsupportedLanguage, message := m })).retryScheduled = false
    ∧ ((setMessage messages (buildUnsupportedLanguageError lang m)).1.filter
        (fun p => p.1 = IssueGroupErrorCode.unsupportedLanguage)).length = 1
    ∧ setMessage (setMessage messages (buildUnsupportedLanguageError lang m)).1
        (buildUnsupportedLanguageError lang m) =
      ((setMessage messages (buildUnsupportedLanguageError lang m)).1, false) := by
  refine ⟨rfl, rfl, rfl, rfl, ?_, setMessage_idempotent _ _⟩
  exact setMessage_code_unique messages (buildUnsupportedLanguageError lang m) hnodup

theorem unsupportedLanguage_surfaces_single_error_witness :
    (handleProofreadResponse "t".data none "xx".data
        (.err { code := .unsupportedLanguage, message := "nope".data })).emitted =
      [buildUnsupportedLanguageError "xx".data "nope".data]
    ∧ (buildUnsupportedLanguageError "xx".data "nope".data).code = .unsupportedLanguage
    ∧ (handleProofreadResponse "t".data none "xx".data
        (.err { code := .unsupportedLanguage, message := "nope".data })).outcome =
      .committed none
    ∧ (handleProofreadResponse "t".data none "xx".data
        (.err { code := .unsupportedLanguage, message := "nope".data })).retryScheduled = false
    ∧ (((setMessage [] (buildUnsupportedLanguageError "xx".data "nope".data)).1).filter
        (fun p => p.1 = IssueGroupErrorCode.unsupportedLanguage)).length = 1
    ∧ setMessage (setMessage [] (buildUnsupportedLanguageError "xx".data "nope".data)).1
        (buildUnsupportedLanguageError "xx".data "nope".data) =
      ((setMessage [] (buildUnsupportedLanguageError "xx".data "nope".data)).1, false) :=
  unsupportedLanguage_surfaces_single_error "t".data "xx".data "nope".data none [] (by decide)

/-- C6: a run answered with `{ok:false, error:{code:"cancelled"}}`
enqueues a retry and ends in an `AbortError` (no result committed)
when the run is not selection-scoped; a selection-scoped run schedules
no retry and also ends in an `AbortError`, with no error message
surfaced on the element in either case. -/
theorem cancelled_run_retries_unless_selectionScoped (text lang m : List Char) :
    ((handleProofreadResponse text none lang
        (.err { code := .cancelled, message := m })).retryScheduled = true
      ∧ (handleProofreadResponse text none lang
          (.err { code := .cancelled, message := m })).outcome =
        .abortError (if m = [] then "Proofreader request cancelled".data else m)
      ∧ (handleProofreadResponse text none lang
          (.err { code := .cancelled, message := m })).emitted = [])
    ∧ ∀ sel : SelectionRange,
      (handleProofreadResponse text (some sel) lang
          (.err { code := .cancelled, message := m })).retryScheduled = false
      ∧ (handleProofreadResponse text (some sel) lang
          (.err { code := .cancelled, message := m })).outcome =
        .abortError (if m = [] then "Proofreader request cancelled".data else m)
      ∧ (handleProofreadResponse text (some sel) lang
          (.err { code := .cancelled, message := m })).emitted = [] :=
  ⟨⟨rfl, rfl, rfl⟩, fun _ => ⟨rfl, rfl, rfl⟩⟩

/-- C2: for a selection-scoped run over `{start, end}` with
`0 ≤ start ≤ end ≤ len(T)`, a successful response is committed with
`correctedInput = T[0:start] + correctedSubrange + T[end:]` and with
every returned correction's offsets shifted by exactly `+start`. -/
theorem selectionScoped_run_reassembles (text lang : List Char)
    (sel : SelectionRange) (r : ProofreadResult)
    (h0 : 0 ≤ sel.start) (h1 : sel.start ≤ sel.stop)
    (h2 : sel.stop ≤ (text.length : Int)) :
    handleProofreadResponse text (some sel) lang (.ok (some r)) =
      { emitted := []
        cleared := [.unsupportedLanguage]
        retryScheduled := false
        outcome := .committed (some
          { correctedInput :=
              text.take sel.start.toNat ++ r.correctedInput ++ text.drop sel.stop.toNat
            corrections := r.corrections.map fun c =>
              { c with
                startIndex := c.startIndex + sel.start
                endIndex := c.endIndex + sel.start } }) } := by
  have hlen0 : (0 : Int) ≤ (text.length : Int) := Int.ofNat_nonneg _
  have hpre : jsSlice text 0 sel.start = text.take sel.start.toNat := by
    rw [jsSlice_eq_take_drop text 0 sel.start le_rfl hlen0 h0 (h1.trans h2)]
    simp
  have hsuf : jsSlice text sel.stop (text.length : Int) = text.drop sel.stop.toNat := by
    rw [jsSlice_eq_take_drop text sel.stop (text.length : Int) (h0.trans h1) h2 hlen0 le_rfl]
    simp
  simp [handleProofreadResponse, hpre, hsuf]

theorem selectionScoped_run_reassembles_witness :
    handleProofreadResponse "abcdef".data
        (some { start := 2, stop := 4 }) "en".data
        (.ok (some { correctedInput := "XY".data,
                     corrections := [{ startIndex := 0, endIndex := 2,
                                       correction := "XY".data }] })) =
      { emitted := []
        cleared := [.unsupportedLanguage]
        retryScheduled := false
        outcome := .committed (some
          { correctedInput :=
              "abcdef".data.take ((2 : Int)).toNat ++ "XY".data ++
                "abcdef".data.drop ((4 : Int)).toNat
            corrections := [({ startIndex := 0, endIndex := 2,
                               correction := "XY".data } : ProofreadCorrection)].map fun c =>
              { c with
                startIndex := c.startIndex + (2 : Int)
                endIndex := c.endIndex + (2 : Int) } }) } :=
  selectionScoped_run_reassembles "abcdef".data "en".data { start := 2, stop := 4 }
    { correctedInput := "XY".data,
      corrections := [{ startIndex := 0, endIndex := 2, correction := "XY".data }] }
    (by decide) (by decide) (by decide)

theorem debounce_foldl_chain {α : Type} (d : Int) (calls : List (Int × α)) :
    ∀ (t : Int) (a : α) (fired : List (Int × α)),
      List.Chain' (fun p q : Int × α => q.1 < p.1 + d) ((t, a) :: calls) →
      (calls.map fun p => DebounceEvent.call p.1 p.2).foldl (debounceStep d)
          { pending := some (t + d, a), fired := fired } =
        { pending := some ((calls.getLastD (t, a)).1 + d, (calls.getLastD (t, a)).2),
          fired := fired } := by
  induction calls with
  | nil =>
    intro t a fired _
    rfl
  | cons p rest ih =>
    intro t a fired hchain
    obtain ⟨t', a'⟩ := p
    obtain ⟨h1, h2⟩ := List.chain'_cons.mp hchain
    have hstep :
        debounceStep d { pending := some (t + d, a), fired := fired }
            (DebounceEvent.call t' a') =
          { pending := some (t' + d, a'), fired := fired } := by
      simp [debounceStep, fireDue, DebounceEvent.time, not_le.mpr h1]
    simp only [List.map_cons, List.foldl_cons, hstep]
    rw [ih t' a' fired h2]
    cases rest with
    | nil => rfl
    | cons r rs => simp [List.getLastD, List.getLast?_cons_cons]

/-- C3: when N ≥ 1 calls hit a debounced function and each successive
call arrives strictly within the debounce window of the previous one,
the wrapped callback fires exactly once, with the last call's
argument, at (time of last call + window); a `cancel()` before that
fire time suppresses the invocation entirely. Concretely, with a
200 ms window and calls at t = 0 and t = 50 the callback fires once at
t = 250 with the second argument, and a cancel at t = 100 yields no
invocation. -/
theorem debounce_collapses_to_last_call {α : Type} (d t : Int) (a : α)
    (rest : List (Int × α)) (tc : Int)
    (hchain : List.Chain' (fun p q : Int × α => q.1 < p.1 + d) ((t, a) :: rest))
    (hcancel : tc < (rest.getLastD (t, a)).1 + d) :
    debounceRun d (((t, a) :: rest).map fun p => DebounceEvent.call p.1 p.2) =
      [((rest.getLastD (t, a)).1 + d, (rest.getLastD (t, a)).2)]
    ∧ debounceRun d ((((t, a) :: rest).map fun p => DebounceEvent.call p.1 p.2) ++
        [DebounceEvent.cancel tc]) = []
    ∧ debounceRun 200 [DebounceEvent.call 0 (0 : Nat), DebounceEvent.call 50 1] = [(250, 1)]
    ∧ debounceRun 200 [DebounceEvent.call 0 (0 : Nat), DebounceEvent.call 50 1,
        DebounceEvent.cancel 100] = [] := by
  have hstep0 :
      debounceStep d { pending := none, fired := [] } (DebounceEvent.call t a) =
        { pending := some (t + d, a), fired := [] } := rfl
  have hfold :=
    debounce_foldl_chain d rest t a ([] : List (Int × α)) hchain
  refine ⟨?_, ?_, by decide, by decide⟩
  · simp only [debounceRun, List.map_cons, List.foldl_cons, hstep0, hfold]
    rfl
  · simp only [debounceRun, List.foldl_append, List.map_cons, List.foldl_cons, hstep0, hfold]
    have hnotle : ¬ ((rest.getLastD (t, a)).1 + d ≤ tc) := not_le.mpr hcancel
    simp only [List.getLastD_eq_getLast?] at hnotle
    simp [debounceStep, fireDue, DebounceEvent.time, debounceFlush, hnotle]

theorem debounce_collapses_to_last_call_witness :
    debounceRun 200 [DebounceEvent.call 0 (0 : Nat), DebounceEvent.call 50 1] = [(250, 1)]
    ∧ debounceRun 200 [DebounceEvent.call 0 (0 : Nat), DebounceEvent.call 50 1,
        DebounceEvent.cancel 100] = [] := by
  have h := debounce_collapses_to_last_call 200 0 (0 : Nat) [(50, 1)] 100
    (List.Chain.cons (by decide) List.Chain.nil) (by decide)
  exact ⟨h.1, h.2.1⟩

theorem processQueue_append {σ ε α : Type} (s : σ) (pre post : List (σ → σ × Except ε α)) :
    processQueue s (pre ++ post) =
      ((processQueue (processQueue s pre).1 post).1,
        (processQueue s pre).2 ++ (processQueue (processQueue s pre).1 post).2) := by
  induction pre generalizing s with
  | nil => simp [processQueue]
  | cons t rest ih =>
    simp [processQueue, ih]

/-- C8: tasks enqueued on the shared `AsyncQueue` run sequentially in
FIFO order — each task runs on the state left by all tasks before it —
every task's settlement is delivered at its own position (to its own
caller), a throwing task contributes an `error` settlement only at its
own position, and every task enqueued after a throwing task still
executes and can resolve: the settlement list always has one entry per
enqueued task. The concrete conjuncts mirror the repository's
`AsyncQueue` unit tests (sequential resolution of `a` then `b`, and a
rejection not blocking the following job). -/
theorem asyncQueue_fifo_delivers_and_advances :
    (∀ (σ ε α : Type) (s : σ) (tasks : List (σ → σ × Except ε α)),
      (processQueue s tasks).2.length = tasks.length)
    ∧ (∀ (σ ε α : Type) (s : σ) (pre : List (σ → σ × Except ε α)) t post,
      processQueue s (pre ++ t :: post) =
        ((processQueue (t (processQueue s pre).1).1 post).1,
          (processQueue s pre).2 ++
            (t (processQueue s pre).1).2 ::
              (processQueue (t (processQueue s pre).1).1 post).2))
    ∧ (∀ (σ ε α : Type) (s : σ) (pre : List (σ → σ × Except ε α)) (e : ε) post,
      (processQueue s (pre ++ (fun st => (st, Except.error e)) :: post)).2 =
        (processQueue s pre).2 ++
          Except.error e :: (processQueue (processQueue s pre).1 post).2)
    ∧ processQueue (0 : Nat)
        [fun s => (s + 1, Except.ok "a".data), fun s => (s + 1, Except.ok "b".data)] =
      ((2 : Nat), [Except.ok "a".data, (Except.ok "b".data : Except (List Char) (List Char))])
    ∧ processQueue (0 : Nat)
        [fun s => (s, Except.error "boom".data), fun s => (s + 1, Except.ok "ok".data)] =
      ((1 : Nat),
        [Except.error "boom".data, (Except.ok "ok".data : Except (List Char) (List Char))]) := by
  have hlen : ∀ (σ ε α : Type) (s : σ) (tasks : List (σ → σ × Except ε α)),
      (processQueue s tasks).2.length = tasks.length := by
    intro σ ε α s tasks
    induction tasks generalizing s with
    | nil => rfl
    | cons t rest ih => simp [processQueue, ih]
  have hmid : ∀ (σ ε α : Type) (s : σ) (pre : List (σ → σ × Except ε α)) t post,
      processQueue s (pre ++ t :: post) =
        ((processQueue (t (processQueue s pre).1).1 post).1,
          (processQueue s pre).2 ++
            (t (processQueue s pre).1).2 ::
              (processQueue (t (processQueue s pre).1).1 post).2) := by
    intro σ ε α s pre t post
    rw [processQueue_append s pre (t :: post)]
    simp [processQueue]
  refine ⟨hlen, hmid, ?_, rfl, rfl⟩
  intro σ ε α s pre e post
  rw [hmid σ ε α s pre (fun st => (st, Except.error e)) post]

/-- The public mutating operations of `ElementTracker`: register,
unregister, and `getElementId` (which lazily assigns, hence mutates). -/
inductive TrackerOp where
  | reg (e : Nat)
  | unreg (e : Nat)
  | query (e : Nat)
  deriving DecidableEq, Repr

/-- Apply one tracker operation. -/
def applyOp (t : ElementTracker) : TrackerOp → ElementTracker
  | .reg e => registerElement t e
  | .unreg e => unregisterElement t e
  | .query e => (getElementId t e).2

/-- Apply a sequence of tracker operations. -/
def applyOps (t : ElementTracker) (ops : List TrackerOp) : ElementTracker :=
  ops.foldl applyOp t

/-- Well-formedness of a tracker state: the element-to-id `WeakMap`
has no duplicate elements and no duplicate ids, every assigned id is
below the fresh counter, and every id-to-element lookup entry mirrors
an entry of the `WeakMap`. -/
def WF (t : ElementTracker) : Prop :=
  (t.elementIds.map Prod.fst).Nodup
  ∧ (t.elementIds.map Prod.snd).Nodup
  ∧ (∀ p ∈ t.elementIds, p.2 < t.nextId)
  ∧ ∀ q ∈ t.elementLookup, (q.2, q.1) ∈ t.elementIds

theorem mapGet_some_mem {κ ν : Type} [DecidableEq κ] (m : List (κ × ν)) (k : κ) (v : ν)
    (h : mapGet m k = some v) : (k, v) ∈ m := by
  induction m with
  | nil => simp [mapGet] at h
  | cons p rest ih =>
    obtain ⟨a, b⟩ := p
    by_cases hp : a = k
    · subst hp
      have hb : b = v := by simpa [mapGet] using h
      subst hb
      exact List.mem_cons_self _ _
    · have h' : mapGet rest k = some v := by simpa [mapGet, hp] using h
      exact List.mem_cons_of_mem _ (ih h')

theorem mapGet_filter_ne_key {κ ν : Type} [DecidableEq κ] (m : List (κ × ν)) (k : κ) :
    mapGet (m.filter fun p => p.1 ≠ k) k = none := by
  induction m with
  | nil => rfl
  | cons p rest ih =>
    obtain ⟨a, b⟩ := p
    by_cases hp : a = k
    · simpa [List.filter_cons, hp] using ih
    · simpa [List.filter_cons, hp, mapGet] using ih

theorem getElementId_assigns (t : ElementTracker) (e : Nat) :
    mapGet (getElementId t e).2.elementIds e = some (getElementId t e).1 := by
  cases hm : mapGet t.elementIds e with
  | some id => simp [getElementId, hm]
  | none => simp [getElementId, hm, mapGet_mapSet_self]

theorem getElementId_preserves_ids (t : ElementTracker) (e x : Nat) (i : Nat)
    (h : mapGet t.elementIds x = some i) :
    mapGet (getElementId t e).2.elementIds x = some i := by
  cases hm : mapGet t.elementIds e with
  | some id => simpa [getElementId, hm] using h
  | none =>
    have hne : x ≠ e := by
      intro hx
      rw [hx] at h
      rw [h] at hm
      exact Option.noConfusion hm
    simpa [getElementId, hm, mapGet_mapSet_ne t.elementIds e x t.nextId hne] using h

theorem registerElement_preserves_ids (t : ElementTracker) (e x : Nat) (i : Nat)
    (h : mapGet t.elementIds x = some i) :
    mapGet (registerElement t e).elementIds x = some i := by
  by_cases hc : e ∈ t.registeredElements
  · simpa [registerElement, hc] using h
  · have hgoal := getElementId_preserves_ids
      { t with registeredElements := t.registeredElements ++ [e] } e x i h
    simpa [registerElement, hc] using hgoal

theorem unregisterElement_elementIds (t : ElementTracker) (e : Nat) :
    (unregisterElement t e).elementIds = t.elementIds := by
  simp only [unregisterElement]
  split
  · split
    · split <;> rfl
    · split <;> rfl
  · rfl

theorem applyOps_preserves_ids (ops : List TrackerOp) :
    ∀ (t : ElementTracker) (x i : Nat), mapGet t.elementIds x = some i →
      mapGet (applyOps t ops).elementIds x = some i := by
  induction ops with
  | nil => intro t x i h; exact h
  | cons op rest ih =>
    intro t x i h
    refine ih (applyOp t op) x i ?_
    cases op with
    | reg e => exact registerElement_preserves_ids t e x i h
    | unreg e =>
      simpa [applyOp, unregisterElement_elementIds] using h
    | query e => exact getElementId_preserves_ids t e x i h

/-- C9 counterexample: register an element, unregister it, register it
again — the element is registered again, yet `byId(idFor(e))` is
`none` rather than the element, because re-registration finds the id
already in the `WeakMap` and never re-populates the id-to-element
lookup. -/
theorem elementTracker_reregister_breaks_roundtrip :
    ((registerElement (unregisterElement (registerElement ElementTracker.empty 0) 0)
        0).registeredElements.contains 0 = true)
    ∧ getElementById
        (registerElement (unregisterElement (registerElement ElementTracker.empty 0) 0) 0)
        (getElementId
          (registerElement (unregisterElement (registerElement ElementTracker.empty 0) 0) 0)
          0).1 = none := by decide

/-- C9 amended: `getElementId` is stable for the element's lifetime
(the same id is returned after any further sequence of operations) and
distinct elements receive distinct ids; `byId(idFor(e)) = e` holds
whenever the element's id-to-element lookup entry is live — it is
established when the element is first assigned an id (for instance on
a fresh registration) and removed at the element's first
unregistration — but a re-registration after unregistering leaves the
lookup untouched, so the round-trip is not restored. -/
theorem elementTracker_id_contract (t : ElementTracker) (e x : Nat) (ops : List TrackerOp)
    (hwf : WF t) :
    ((getElementId (applyOps (getElementId t e).2 ops) e).1 = (getElementId t e).1)
    ∧ (e ≠ x → (getElementId t e).1 ≠ (getElementId (getElementId t e).2 x).1)
    ∧ (∀ id, mapGet t.elementIds e = some id → mapGet t.elementLookup id = some e →
        getElementById t (getElementId t e).1 = some e)
    ∧ (mapGet t.elementIds e = none → e ∉ t.registeredElements →
        getElementById (registerElement t e) (getElementId (registerElement t e) e).1 = some e)
    ∧ (∀ id, mapGet t.elementIds e = some id → e ∈ t.registeredElements →
        getElementById (unregisterElement t e) id = none)
    ∧ ∀ id, mapGet t.elementIds e = some id →
        (registerElement t e).elementLookup = t.elementLookup := by
  obtain ⟨hkeys, hsnds, hbound, hlook⟩ := hwf
  refine ⟨?_, ?_, ?_, ?_, ?_, ?_⟩
  · have hasg := getElementId_assigns t e
    set r := getElementId t e with hr
    have hpres := applyOps_preserves_ids ops r.2 e r.1 hasg
    simp [getElementId, hpres]
  · intro hne
    cases hme : mapGet t.elementIds e with
    | some i =>
      cases hmx : mapGet t.elementIds x with
      | some j =>
        simp only [getElementId, hme, hmx]
        intro hij
        have h1 : (e, i) ∈ t.elementIds := mapGet_some_mem _ _ _ hme
        have h2 : (x, j) ∈ t.elementIds := mapGet_some_mem _ _ _ hmx
        have heq : ((e, i) : Nat × Nat) = (x, j) :=
          List.inj_on_of_nodup_map hsnds h1 h2 (by simpa using hij)
        exact hne (congrArg Prod.fst heq)
      | none =>
        simp only [getElementId, hme, hmx]
        have h1 : (e, i) ∈ t.elementIds := mapGet_some_mem _ _ _ hme
        exact ne_of_lt (hbound (e, i) h1)
    | none =>
      have hmx' : mapGet (mapSet t.elementIds e t.nextId) x = mapGet t.elementIds x :=
        mapGet_mapSet_ne t.elementIds e x t.nextId (Ne.symm hne)
      cases hmx2 : mapGet t.elementIds x with
      | some j =>
        simp only [getElementId, hme, hmx', hmx2]
        have h2 : (x, j) ∈ t.elementIds := mapGet_some_mem _ _ _ hmx2
        exact ne_of_gt (hbound (x, j) h2)
      | none =>
        simp only [getElementId, hme, hmx', hmx2]
        omega
  · intro id hid hlk
    simp [getElementId, hid, getElementById, hlk]
  · intro hfresh hnreg
    have hregeq : registerElement t e =
        { t with
          registeredElements := t.registeredElements ++ [e]
          elementIds := mapSet t.elementIds e t.nextId
          elementLookup := mapSet t.elementLookup t.nextId e
          nextId := t.nextId + 1 } := by
      simp [registerElement, hnreg, getElementId, hfresh]
    rw [hregeq]
    have hq : mapGet (mapSet t.elementIds e t.nextId) e = some t.nextId :=
      mapGet_mapSet_self _ _ _
    simp [getElementId, hq, getElementById, mapGet_mapSet_self]
  · intro id hid hregmem
    have hc : t.registeredElements.contains e = true := List.elem_iff.mpr hregmem
    have hlk : (unregisterElement t e).elementLookup =
        t.elementLookup.filter (fun p => p.1 ≠ id) := by
      simp only [unregisterElement, hc, if_true, hid]
      split <;> rfl
    simp only [getElementById, hlk]
    exact mapGet_filter_ne_key _ _
  · intro id hid
    by_cases hc : e ∈ t.registeredElements
    · simp [registerElement, hc]
    · simp [registerElement, hc, getElementId, hid]

theorem elementTracker_id_contract_witness :
    ((getElementId (applyOps (getElementId (registerElement ElementTracker.empty 0) 0).2
        [TrackerOp.reg 1]) 0).1 =
      (getElementId (registerElement ElementTracker.empty 0) 0).1)
    ∧ ((getElementId (registerElement ElementTracker.empty 0) 0).1 ≠
      (getElementId (getElementId (registerElement ElementTracker.empty 0) 0).2 1).1)
    ∧ getElementById (registerElement ElementTracker.empty 0)
        (getElementId (registerElement ElementTracker.empty 0) 0).1 = some 0
    ∧ getElementById (registerElement ElementTracker.empty 0)
        (getElementId (registerElement ElementTracker.empty 0) 0).1 = some 0
    ∧ getElementById (unregisterElement (registerElement ElementTracker.empty 0) 0) 0 = none
    ∧ (registerElement (registerElement ElementTracker.empty 0) 0).elementLookup =
      (registerElement ElementTracker.empty 0).elementLookup := by
  have h1 := elementTracker_id_contract (registerElement ElementTracker.empty 0) 0 1
    [TrackerOp.reg 1] ⟨by decide, by decide, by decide, by decide⟩
  have h2 := elementTracker_id_contract ElementTracker.empty 0 1 []
    ⟨by decide, by decide, by decide, by decide⟩
  exact ⟨h1.1, h1.2.1 (by decide), h1.2.2.1 0 (by decide) (by decide),
    h2.2.2.2.1 (by decide) (by decide), h1.2.2.2.2.1 0 (by decide) (by decide),
    h1.2.2.2.2.2 0 (by decide)⟩

end Proofly
